import Mathlib

/-!
Verification of the bhugo note-to-document pipeline (main.go and the
refactored variant of it found in the repository).

The embedding is byte-level: a Go `[]byte` is modelled as `List Nat`
(each element a byte value).  The Go functions `scanTags`, `formatTag`,
`customFrontMatter`, the front-matter template and the core of
`updateHugoNote` are translated definition by definition.  Go runtime
panics (out-of-range slice indexing) are modelled by `Option`/dedicated
result constructors, and the (non-terminating) trailing-empty-line loop
of main.go is modelled with explicit fuel.

All inputs relevant to the claims are ASCII, so byte-level modelling of
the rune-based Go string helpers (strings.Title, strings.TrimSpace,
strings.ToLower) agrees with the source on every input considered here.
-/

set_option autoImplicit false

namespace Bhugo

/-- Byte strings, one `Nat` per byte. -/
abbrev Bytes := List Nat

/-- Helper turning an ASCII string literal into its byte list. -/
def bs (s : String) : Bytes := s.toList.map Char.toNat

/-- The newline byte. -/
def nl : Nat := 10

/-- bytes.Split(f, []byte("\n")): split a byte string on the newline
byte; always returns at least one (possibly empty) piece. -/
def splitB : Bytes → List Bytes
  | [] => [[]]
  | b :: rest =>
    if b = nl then [] :: splitB rest
    else
      match splitB rest with
      | [] => [[b]]
      | x :: xs => (b :: x) :: xs

/-- bytes.Join(xs, []byte("\n")): interleave the pieces with newline
bytes. -/
def joinB : List Bytes → Bytes
  | [] => []
  | [x] => x
  | x :: y :: ys => x ++ nl :: joinB (y :: ys)

theorem splitB_ne_nil (l : Bytes) : splitB l ≠ [] := by
  induction l with
  | nil => simp [splitB]
  | cons b rest ih =>
    by_cases hb : b = nl
    · simp [splitB, hb]
    · simp only [splitB, if_neg hb]
      cases h : splitB rest with
      | nil => simp
      | cons x xs => simp

theorem splitB_cons_of_ne (b : Nat) (rest : Bytes) (hb : b ≠ nl) :
    splitB (b :: rest) = (b :: (splitB rest).headI) :: (splitB rest).tail := by
  simp only [splitB, if_neg hb]
  cases h : splitB rest with
  | nil => exact absurd h (splitB_ne_nil rest)
  | cons x xs => simp

theorem splitB_no_nl (l : Bytes) (hl : nl ∉ l) : splitB l = [l] := by
  induction l with
  | nil => rfl
  | cons b rest ih =>
    have hb : b ≠ nl := fun h => hl (h ▸ List.mem_cons_self b rest)
    have hrest : nl ∉ rest := fun h => hl (List.mem_cons_of_mem b h)
    rw [splitB_cons_of_ne b rest hb, ih hrest]
    simp

theorem splitB_append_cons (a : Bytes) (r : Bytes) (ha : nl ∉ a) :
    splitB (a ++ nl :: r) = a :: splitB r := by
  induction a with
  | nil => simp [splitB]
  | cons b a2 ih =>
    have hb : b ≠ nl := fun h => ha (h ▸ List.mem_cons_self b a2)
    have ha2 : nl ∉ a2 := fun h => ha (List.mem_cons_of_mem b h)
    rw [List.cons_append, splitB_cons_of_ne b (a2 ++ nl :: r) hb, ih ha2]
    simp

theorem mem_splitB_no_nl (l : Bytes) : ∀ x ∈ splitB l, nl ∉ x := by
  induction l with
  | nil =>
    intro x hx
    simp only [splitB, List.mem_singleton] at hx
    subst hx; simp
  | cons b rest ih =>
    intro x hx
    by_cases hb : b = nl
    · simp only [splitB, if_pos hb, List.mem_cons] at hx
      rcases hx with h | h
      · subst h; simp
      · exact ih x h
    · rw [splitB_cons_of_ne b rest hb] at hx
      rcases List.mem_cons.mp hx with h | h
      · subst h
        intro hmem
        rcases List.mem_cons.mp hmem with h10 | h10
        · exact hb h10.symm
        · have hhead : (splitB rest).headI ∈ splitB rest := by
            cases hsp : splitB rest with
            | nil => exact absurd hsp (splitB_ne_nil rest)
            | cons y ys => simp
          exact ih _ hhead h10
      · have hm : x ∈ splitB rest := by
          cases hsp : splitB rest with
          | nil => exact absurd hsp (splitB_ne_nil rest)
          | cons y ys => rw [hsp] at h; exact List.mem_cons_of_mem y h
        exact ih x hm

theorem splitB_joinB (xs : List Bytes) (b : Bytes)
    (h : ∀ x ∈ xs, nl ∉ x) (hne : xs ≠ []) :
    splitB (joinB xs ++ nl :: b) = xs ++ splitB b := by
  induction xs with
  | nil => exact absurd rfl hne
  | cons x xs2 ih =>
    cases xs2 with
    | nil =>
      have hx : nl ∉ x := h x (List.mem_cons_self x [])
      simp only [joinB]
      rw [splitB_append_cons x b hx]
      simp
    | cons y ys =>
      have hx : nl ∉ x := h x (List.mem_cons_self x (y :: ys))
      have h2 : ∀ z ∈ y :: ys, nl ∉ z := fun z hz => h z (List.mem_cons_of_mem x hz)
      simp only [joinB]
      have hshape : (x ++ nl :: joinB (y :: ys)) ++ nl :: b
          = x ++ nl :: (joinB (y :: ys) ++ nl :: b) := by simp
      rw [hshape, splitB_append_cons x _ hx, ih h2 (by simp)]
      simp

/-! ### Go string helpers used by formatTag and the draft check -/

/-- True when `pat` is an initial segment of `l` (strings.HasPrefix at
byte level). -/
def leadsWith : Bytes → Bytes → Bool
  | [], _ => true
  | _ :: _, [] => false
  | a :: ps, b :: ss => a == b && leadsWith ps ss

/-- strings.TrimPrefix: drop `pat` from the front when it is there. -/
def trimLeadB (pat l : Bytes) : Bytes :=
  if leadsWith pat l then l.drop pat.length else l

/-- True when `pat` is a final segment of `l` (strings.HasSuffix at byte
level). -/
def trailsWith (pat l : Bytes) : Bool :=
  leadsWith pat.reverse l.reverse

/-- strings.TrimSuffix: drop `pat` from the back when it is there. -/
def trimTrailB (pat l : Bytes) : Bytes :=
  if trailsWith pat l then l.take (l.length - pat.length) else l

/-- unicode.IsSpace restricted to ASCII bytes: tab, newline, vertical
tab, form feed, carriage return, space. -/
def isSpaceB (b : Nat) : Bool :=
  b == 9 || b == 10 || b == 11 || b == 12 || b == 13 || b == 32

/-- strings.TrimSpace at byte level. -/
def trimSpaceB (l : Bytes) : Bytes :=
  ((l.dropWhile isSpaceB).reverse.dropWhile isSpaceB).reverse

/-- ASCII upper-casing of one byte (unicode.ToTitle on ASCII letters). -/
def upperB (b : Nat) : Nat :=
  if 97 ≤ b ∧ b ≤ 122 then b - 32 else b

/-- ASCII lower-casing of one byte (strings.ToLower on ASCII). -/
def lowerB1 (b : Nat) : Nat :=
  if 65 ≤ b ∧ b ≤ 90 then b + 32 else b

/-- strings.ToLower at byte level. -/
def lowerB (l : Bytes) : Bytes := l.map lowerB1

/-- strings.isSeparator for ASCII bytes: anything that is not an ASCII
alphanumeric or underscore.  Bytes above 127 do not occur in the inputs
considered; they are treated as non-separators. -/
def isSepB (b : Nat) : Bool :=
  if b ≤ 127 then
    if (48 ≤ b ∧ b ≤ 57) ∨ (97 ≤ b ∧ b ≤ 122) ∨ (65 ≤ b ∧ b ≤ 90) ∨ b = 95
    then false else true
  else false

/-- strings.Title: upper-case every byte that follows a separator; the
flag records whether the previous byte was a separator (initially true,
as Go starts with prev = a space). -/
def titleGoAux : Bool → Bytes → Bytes
  | _, [] => []
  | pSep, b :: rest => (if pSep then upperB b else b) :: titleGoAux (isSepB b) rest

/-- strings.Title at byte level. -/
def titleGo (l : Bytes) : Bytes := titleGoAux true l

/-- strings.Contains at byte level: `pat` occurs contiguously in `l`. -/
def containsB (pat : Bytes) : Bytes → Bool
  | [] => leadsWith pat []
  | b :: rest => leadsWith pat (b :: rest) || containsB pat rest

/-- formatTag (main.go): trim surrounding whitespace, strip one trailing
hash byte, strip one leading tag-plus-slash segment, then title-case. -/
def formatTag (l tag : Bytes) : Bytes :=
  titleGo (trimLeadB (tag ++ [47]) (trimTrailB [35] (trimSpaceB l)))

/-! ### The hashtag scanner scanTags (main.go lines 397-459)

The Go loop walks the byte slice with an index, mutating `start`, `end`,
`inHash`, `multiWord`, `prev` and appending closed spans to `hashtags`.
`end` is a Lean keyword, so the field is called `stop`.  The slice
expressions `l[start:start+len(tag)]` and `l[start:end]` panic when the
bounds leave the slice; a panic is modelled as `none`. -/

structure ScanSt where
  start : Nat
  stop : Nat
  inHash : Bool
  multiWord : Bool
  prev : Nat
  acc : List Bytes
  deriving Repr, DecidableEq

/-- Go slice l[a:b] (only used with a ≤ b ≤ len l; bounds are checked at
each use site). -/
def sliceB (l : Bytes) (a b : Nat) : Bytes := (l.drop a).take (b - a)

/-- The span-closing action shared by the mid-line close and the
end-of-line close: check the omit-others filter, then append the
formatted span.  Go panics (here: `none`) when `start+len(tag)` exceeds
the line length while evaluating `bytes.Equal(l[start:start+len(tag)],
tag)`, or when `l[start:end]` is ill-bounded. -/
def emitTag (l tag : Bytes) (omitO : Bool) (st : ScanSt) : Option (List Bytes) :=
  if omitO then
    if st.start + tag.length ≤ l.length then
      if sliceB l st.start (st.start + tag.length) = tag then
        if st.start ≤ st.stop ∧ st.stop ≤ l.length then
          some (st.acc ++ [formatTag (sliceB l st.start st.stop) tag])
        else none
      else some st.acc
    else none
  else
    if st.start ≤ st.stop ∧ st.stop ≤ l.length then
      some (st.acc ++ [formatTag (sliceB l st.start st.stop) tag])
    else none

/-- One iteration of the scanTags loop at index `i` (the Go switch,
cases in source order, followed by the unconditional `prev = rune(r)`). -/
def scanStep (l tag : Bytes) (omitO : Bool) (i : Nat) (st : ScanSt) : Option ScanSt :=
  let r := l.getD i 0
  let peek := if i + 1 ≤ l.length - 1 then l.getD (i + 1) 0 else 0
  if r = 35 ∧ (st.prev = 32 ∨ st.prev = 0) ∧ st.inHash = false then
    some { st with start := i + 1, stop := i + 1, inHash := true, prev := r }
  else if st.prev ≠ 32 ∧ r = 35 then
    some { st with stop := i, prev := r }
  else if st.inHash ∧ r = 32 ∧ peek ≠ 35 then
    some { st with stop := i, multiWord := true, prev := r }
  else if r = 32 ∧ peek = 35 ∧ st.inHash then
    match emitTag l tag omitO st with
    | none => none
    | some acc2 =>
      some { st with inHash := false, multiWord := false, acc := acc2, prev := r }
  else if st.multiWord = false then
    some { st with stop := i + 1, prev := r }
  else
    some { st with prev := r }

/-- Run the loop for the remaining `rem` indices starting at `i`. -/
def scanLoop (l tag : Bytes) (omitO : Bool) : Nat → Nat → ScanSt → Option ScanSt
  | 0, _, st => some st
  | rem + 1, i, st =>
    match scanStep l tag omitO i st with
    | none => none
    | some st2 => scanLoop l tag omitO rem (i + 1) st2

/-- scanTags: run the loop over the whole line, then close a trailing
unterminated span.  `none` models a Go runtime panic. -/
def scanTags (l tag : Bytes) (omitO : Bool) : Option (List Bytes) :=
  match scanLoop l tag omitO l.length 0
      { start := 0, stop := 0, inHash := false, multiWord := false, prev := 0, acc := [] } with
  | none => none
  | some st => if st.inHash then emitTag l tag omitO st else some st.acc

/-! ### customFrontMatter (main.go lines 461-487)

The Go code looks lines up in the package-level map `bhugoFrontMatter`.
At startup the program overwrites the entries for "categories" and
"tags" with the configured booleans (main.go lines 120-121), so map
membership is a function of the two flags; the other three keys are
always true.  The parser takes the two flags explicitly. -/

/-- The line that is exactly the three dashes delimiter. -/
def dashes : Bytes := [45, 45, 45]

/-- bytes.Split(l, ":")[0]: the candidate key of a line is everything
before the first colon byte (the whole line when there is none). -/
def keyOf (l : Bytes) : Bytes := l.takeWhile (fun b => b ≠ 58)

/-- Membership in the bhugoFrontMatter map as it stands after the
startup mutation: title, date, draft always; categories and tags only
when the corresponding flag is set. -/
def managedKey (catF tagF : Bool) (k : Bytes) : Bool :=
  k == bs ("title") || k == bs ("date") || k == bs ("draft")
    || (catF && k == bs ("categories")) || (tagF && k == bs ("tags"))

/-- The loop body of customFrontMatter for lines after the first: skip
managed lines, return the accumulator at a dashes line, otherwise
append; falling off the end returns the empty list. -/
def cfmScan (catF tagF : Bool) : List Bytes → List Bytes → List Bytes
  | _, [] => []
  | acc, l :: rest =>
    if managedKey catF tagF (keyOf l) then cfmScan catF tagF acc rest
    else if l = dashes then acc
    else cfmScan catF tagF (acc ++ [l]) rest

/-- customFrontMatter: the first line must be exactly the dashes
delimiter, else the result is empty. -/
def customFrontMatter (catF tagF : Bool) (f : Bytes) : List Bytes :=
  match splitB f with
  | [] => []
  | l0 :: rest => if l0 = dashes then cfmScan catF tagF [] rest else []

/-! ### The document template (main.go lines 61-85)

The Go text/template, with its whitespace-trimming actions resolved,
produces exactly:

  dashes, newline,
  the title line,                                   newline,
  the date line,
  when Categories: newline, the categories line,
  when Tags:       newline, the tags line,
  newline, the draft line,
  for each custom front-matter line: newline, the line,
  newline, dashes, newline,
  the body (no separator in between).

This equals joinB of the line list followed by one newline and the
body. -/

/-- One hashtag rendered inside the array: double-quoted. -/
def quoted (c : Bytes) : Bytes := 34 :: c ++ [34]

/-- The template range over .Hashtags: values double-quoted and
comma-joined with no trailing comma. -/
def hashtagArray : List Bytes → Bytes
  | [] => []
  | [c] => quoted c
  | c :: c2 :: cs => quoted c ++ 44 :: hashtagArray (c2 :: cs)

/-- A transformed note as handed to the template: the fields of the Go
`note` struct that the template reads. -/
structure TNote where
  title : Bytes
  date : Bytes
  hashtags : List Bytes
  draft : Bool
  categories : Bool
  tags : Bool
  body : Bytes
  deriving Repr, DecidableEq

/-- The front-matter lines the template produces, in template order. -/
def renderLines (t : TNote) (cfm : List Bytes) : List Bytes :=
  [dashes, bs ("title: \"") ++ t.title ++ [34], bs ("date: ") ++ t.date]
    ++ (if t.categories then [bs ("categories: [") ++ hashtagArray t.hashtags ++ [93]] else [])
    ++ (if t.tags then [bs ("tags: [") ++ hashtagArray t.hashtags ++ [93]] else [])
    ++ [bs ("draft: ") ++ (if t.draft then bs ("true") else bs ("false"))]
    ++ cfm
    ++ [dashes]

/-- The rendered document: the front-matter lines joined with newlines,
one newline, then the body verbatim. -/
def render (t : TNote) (cfm : List Bytes) : Bytes :=
  joinB (renderLines t cfm) ++ nl :: t.body

/-! ### The note transformer (updateHugoNote, pre-filesystem part)

Two versions exist in the repository.  main.go (lines 275-319) strips
trailing empty lines with

  for len(lines) > 0 && len(lines[len(lines)-1]) == 0 \x7b
      lines = lines[0:len(lines)]
  \x7d

whose body re-slices the full length and never shrinks the slice, so the
loop runs forever as soon as the guard holds; it is modelled with fuel
(`mainStripLoop`).  The refactored variant (part_002 lines 306-314)
walks an index down instead:

  last := len(lines) - 1
  for last > 0 && len(lines[last]) == 0 \x7b last-- \x7d
  lines = lines[0 : last+1]

and terminates; it is modelled by `stripLastIdx`/`stripV2`.  Both
versions are otherwise identical in the modelled portion. -/

/-- Worker for bytes.ReplaceAll: scan left to right, replacing each
non-overlapping occurrence of `pat` (nonempty) by `rep`.  The first
argument is fuel; every step consumes at least one byte, so fuel equal
to the length of the input always suffices (structural recursion keeps
the definition kernel-computable). -/
def replA (pat rep : Bytes) : Nat → Bytes → Bytes
  | 0, l => l
  | _ + 1, [] => []
  | fuel + 1, b :: rest =>
    if leadsWith pat (b :: rest) ∧ pat ≠ [] then
      rep ++ replA pat rep fuel (rest.drop (pat.length - 1))
    else
      b :: replA pat rep fuel rest

/-- bytes.ReplaceAll at byte level. -/
def replaceB (pat rep : Bytes) (l : Bytes) : Bytes :=
  replA pat rep l.length l

/-- The three UTF-8 bytes of the left curly double quote. -/
def smartL : Bytes := [226, 128, 156]

/-- The three UTF-8 bytes of the right curly double quote. -/
def smartR : Bytes := [226, 128, 157]

/-- The smart-quote normalisation applied to the raw body (both curly
double quotes become the straight double quote, byte 34). -/
def normQuotes (raw : Bytes) : Bytes :=
  replaceB smartR [34] (replaceB smartL [34] raw)

/-- The draft loop: Draft starts false and becomes true when some
hashtag, lower-cased, contains the bytes of "draft". -/
def draftOf (hs : List Bytes) : Bool :=
  hs.foldl (fun d c => if containsB (bs ("draft")) (lowerB c) then true else d) false

/-- The final value of `last` in the part_002 strip loop: walk down from
the given index while the line there is empty, stopping at index 0. -/
def stripLastIdx (lines : List Bytes) : Nat → Nat
  | 0 => 0
  | n + 1 => if lines.getD (n + 1) [0] = [] then stripLastIdx lines n else n + 1

/-- lines[0 : last+1] after the part_002 strip loop. -/
def stripV2 (lines : List Bytes) : List Bytes :=
  lines.take (stripLastIdx lines (lines.length - 1) + 1)

/-- The main.go strip loop, fuel-indexed: the guard is the Go loop
condition and the body is the no-op re-slice lines[0:len(lines)];
`none` means the fuel ran out with the guard still true. -/
def mainStripLoop : Nat → List Bytes → Option (List Bytes)
  | 0, _ => none
  | fuel + 1, lines =>
    if 0 < lines.length ∧ lines.getD (lines.length - 1) [0] = [] then
      mainStripLoop fuel (lines.take lines.length)
    else
      some lines

/-- Result of the transformer part of updateHugoNote: a silent skip
(negative tag line resolving out of bounds), a runtime panic (index or
slice out of range), or a transformed note. -/
inductive TRes where
  | skip : TRes
  | panic : TRes
  | ok : TNote → TRes
  deriving Repr, DecidableEq

/-- The configuration fields updateHugoNote reads. -/
structure Cfg where
  noteTag : Bytes
  categories : Bool
  tags : Bool
  tagLine : Int
  omitOthers : Bool
  deriving Repr, DecidableEq

/-- The steps of updateHugoNote after the tag line index `cur` has been
fixed (`cur < lines.length` holds on all call paths): scan the tag
line, compute the draft flag, delete the tag line (slices.Delete), and
join everything after the first line into the body.  Go panics when the
deletion empties the list, because lines[1:] is then out of range. -/
def transformCore (cfg : Cfg) (title date : Bytes) (lines : List Bytes) (cur : Nat) : TRes :=
  match scanTags (lines.getD cur []) cfg.noteTag cfg.omitOthers with
  | none => .panic
  | some hs =>
    let lines2 := lines.take cur ++ lines.drop (cur + 1)
    if lines2.length = 0 then .panic
    else
      .ok { title := title, date := date, hashtags := hs, draft := draftOf hs,
            categories := cfg.categories, tags := cfg.tags,
            body := joinB (lines2.drop 1) }

/-- The transformer with the part_002 (terminating) strip loop: quote
normalisation, line split, tag-line resolution (with the silent skip
for a negative index resolving out of bounds, and a panic for a
non-negative index at or past the line count), then `transformCore`.
The date string is an opaque parameter (Go formats the creation
timestamp with time.Format, which is outside the model). -/
def transform (cfg : Cfg) (title date raw : Bytes) : TRes :=
  let lines := splitB (normQuotes raw)
  if cfg.tagLine < 0 then
    let lines2 := stripV2 lines
    let cur : Int := (lines2.length : Int) + cfg.tagLine
    if cur < 0 ∨ (lines2.length : Int) ≤ cur then .skip
    else transformCore cfg title date lines2 cur.toNat
  else
    if cfg.tagLine.toNat < lines.length then
      transformCore cfg title date lines cfg.tagLine.toNat
    else .panic

/-- The transformer exactly as in main.go, with the non-terminating
strip loop under fuel; `none` means the strip loop was still running
when the fuel ran out. -/
def transformMainFuel (fuel : Nat) (cfg : Cfg) (title date raw : Bytes) : Option TRes :=
  let lines := splitB (normQuotes raw)
  if cfg.tagLine < 0 then
    match mainStripLoop fuel lines with
    | none => none
    | some lines2 =>
      let cur : Int := (lines2.length : Int) + cfg.tagLine
      if cur < 0 ∨ (lines2.length : Int) ≤ cur then some .skip
      else some (transformCore cfg title date lines2 cur.toNat)
  else
    if cfg.tagLine.toNat < lines.length then
      some (transformCore cfg title date lines cfg.tagLine.toNat)
    else some .panic

/-! ### The writer (updateHugoNote, filesystem part)

The filesystem is modelled as the state of the one output location: the
bundle directory flag and the optional content of index.md.  The writer
reads the existing file, re-extracts custom front matter when the file
is non-empty, renders into a temporary file, and replaces the real file
only when the bytes differ. -/

structure FS where
  dirCreated : Bool
  file : Option Bytes
  deriving Repr, DecidableEq

inductive RunRes where
  | created : RunRes
  | updated : RunRes
  | unchanged : RunRes
  | skipped : RunRes
  | panicked : RunRes
  deriving Repr, DecidableEq

/-- Custom front matter recovered from the existing file: only parsed
when the file exists and is non-empty (main.go lines 336-338). -/
def extractCfm (catF tagF : Bool) (c : Option Bytes) : List Bytes :=
  match c with
  | none => []
  | some f => if f = [] then [] else customFrontMatter catF tagF f

/-- One full run of updateHugoNote on one note against the modelled
filesystem state. -/
def runOnce (cfg : Cfg) (title date raw : Bytes) (fs : FS) : FS × RunRes :=
  match transform cfg title date raw with
  | .skip => (fs, .skipped)
  | .panic => (fs, .panicked)
  | .ok t =>
    let cfm := extractCfm cfg.categories cfg.tags fs.file
    let doc := render t cfm
    match fs.file with
    | some c =>
      if c = doc then ({ dirCreated := true, file := fs.file }, .unchanged)
      else ({ dirCreated := true, file := some doc }, .updated)
    | none => ({ dirCreated := true, file := some doc }, .created)

/-! ### Helper lemmas -/

/-- The Go defaults of the config struct: NoteTag "blog", Categories
true, Tags false, TagLine -1, OmitNonNoteTagPrefix true. -/
def defaultCfg : Cfg :=
  { noteTag := bs ("blog"), categories := true, tags := false,
    tagLine := -1, omitOthers := true }

/-- Once the guard of the main.go strip loop holds, it holds forever:
the body lines[0:len(lines)] leaves the slice unchanged, so no amount
of fuel finishes the loop. -/
theorem mainStripLoop_stuck (lines : List Bytes)
    (h : 0 < lines.length ∧ lines.getD (lines.length - 1) [0] = []) :
    ∀ fuel, mainStripLoop fuel lines = none := by
  intro fuel
  induction fuel with
  | zero => rfl
  | succ n ih =>
    simp only [mainStripLoop, if_pos h, List.take_length]
    exact ih

/-- The draft fold is the any-combinator seeded with the accumulator. -/
theorem draftOf_foldl (hs : List Bytes) (d : Bool) :
    hs.foldl (fun d2 c => if containsB (bs ("draft")) (lowerB c) then true else d2) d
      = (d || hs.any (fun c => containsB (bs ("draft")) (lowerB c))) := by
  induction hs generalizing d with
  | nil => simp
  | cons c cs ih =>
    simp only [List.foldl_cons, List.any_cons]
    rw [ih]
    by_cases h : containsB (bs ("draft")) (lowerB c) = true
    · simp [h]
    · simp [h]

/-! ### Claim theorems -/

/-- C2: the hashtag scanner satisfies the seven test vectors of the
spec (and of the repository unit tests) for prefix "prefix", with tags
emitted in left-to-right encounter order. -/
theorem scanTags_vectors_c2 :
    scanTags (bs ("")) (bs ("prefix")) false = some []
    ∧ scanTags (bs ("#prefix/abc")) (bs ("prefix")) false = some [bs ("Abc")]
    ∧ scanTags (bs ("#prefix/abc def#")) (bs ("prefix")) false = some [bs ("Abc Def")]
    ∧ scanTags (bs ("#prefix/abc #prefix/def abc#  #def")) (bs ("prefix")) false
        = some [bs ("Abc"), bs ("Def Abc"), bs ("Def")]
    ∧ scanTags (bs ("1234")) (bs ("prefix")) false = some []
    ∧ scanTags (bs ("#prefix/abc 123 #one 456")) (bs ("prefix")) false
        = some [bs ("Abc"), bs ("One")]
    ∧ scanTags (bs ("#prefix/abc 123 #one 456")) (bs ("prefix")) true = some [bs ("Abc")] := by
  refine ⟨?_, ?_, ?_, ?_, ?_, ?_, ?_⟩ <;> decide

/-- C6: the scanner does NOT complete normally on every line when
omitOthers is true: on the line consisting of the single byte "#" with
prefix "prefix", the closing comparison slices l[1:7] in a line of
length 1 and panics (modelled as none). -/
theorem scanTags_panics_on_short_span_c6 :
    scanTags (bs ("#")) (bs ("prefix")) true = none := by decide

/-- C4: the main.go loop that is supposed to strip trailing empty lines
never terminates on a body that ends with an empty line (here
"Title\n#blog/x\n"), because its body re-slices the full length; the
stripping the claim describes never happens. -/
theorem mainStrip_diverges_c4 :
    ∀ fuel, mainStripLoop fuel (splitB (bs ("Title\n#blog/x\n"))) = none := by
  intro fuel
  exact mainStripLoop_stuck _ (by decide) fuel

/-- C10: the main.go transformer is not total: with the default
configuration (tag line -1) and a raw body that ends with a newline, the
trailing-empty-line loop diverges, so no fuel makes updateHugoNote reach
a result. -/
theorem transformMain_diverges_c10 :
    ∀ fuel, transformMainFuel fuel defaultCfg (bs ("A")) (bs ("D")) (bs ("A\n#blog/x\n")) = none := by
  intro fuel
  have h := mainStripLoop_stuck (splitB (normQuotes (bs ("A\n#blog/x\n")))) (by decide) fuel
  simp only [transformMainFuel]
  rw [if_pos (by decide : defaultCfg.tagLine < 0), h]

/-- A configuration with a non-negative tag-line index (1, the second
line) used for the C5 counterexample. -/
def cfgTagLine1 : Cfg :=
  { noteTag := bs ("blog"), categories := true, tags := true,
    tagLine := 1, omitOthers := true }

/-- C5 counterexample: a non-negative configured tag-line index that
resolves out of bounds does not skip the note: with tag line 1 and a
one-line body, lines[1] is out of range and the program panics. -/
theorem transform_panics_positive_oob_c5 :
    transform cfgTagLine1 (bs ("t")) (bs ("d")) (bs ("t")) = .panic
    ∧ transform cfgTagLine1 (bs ("t")) (bs ("d")) (bs ("t")) ≠ .skip := by
  refine ⟨by decide, by decide⟩

/-- C9: the transformer's draft flag (draftOf, the loop of main.go lines
304-308 starting from the zero value false) is true exactly when some
hashtag lower-cased contains the bytes of "draft". -/
theorem draft_detection_c9 (hs : List Bytes) :
    draftOf hs = true
      ↔ ∃ c ∈ hs, containsB (bs ("draft")) (lowerB c) = true := by
  unfold draftOf
  rw [draftOf_foldl]
  simp [List.any_eq_true]

/-! ### Front-matter parser lemmas (claims C3 and C7) -/

theorem keyOf_dashes : keyOf dashes = dashes := by decide

theorem managedKey_dashes (catF tagF : Bool) : managedKey catF tagF dashes = false := by
  cases catF <;> cases tagF <;> decide

/-- A line the parser treats as managed is never the delimiter line. -/
theorem managed_ne_dashes (catF tagF : Bool) (l : Bytes)
    (h : managedKey catF tagF (keyOf l) = true) : l ≠ dashes := by
  intro he
  rw [he, keyOf_dashes, managedKey_dashes] at h
  exact Bool.false_ne_true h

/-- When a closing delimiter is present, the scan returns the
accumulator followed by the lines before the first delimiter whose key
is not managed, in order. -/
theorem cfmScan_eq_filter (catF tagF : Bool) (rest : List Bytes)
    (h : dashes ∈ rest) : ∀ acc,
    cfmScan catF tagF acc rest
      = acc ++ (rest.takeWhile (fun l => l ≠ dashes)).filter
          (fun l => !(managedKey catF tagF (keyOf l))) := by
  induction rest with
  | nil => exact absurd h (by simp)
  | cons l rest ih =>
    intro acc
    by_cases h1 : managedKey catF tagF (keyOf l) = true
    · have hld : l ≠ dashes := managed_ne_dashes catF tagF l h1
      have h2 : dashes ∈ rest := by
        rcases List.mem_cons.mp h with he | he
        · exact absurd he.symm hld
        · exact he
      simp only [cfmScan, if_pos h1]
      rw [ih h2 acc]
      simp [List.takeWhile_cons, List.filter_cons, hld, h1]
    · by_cases h2 : l = dashes
      · subst h2
        simp only [cfmScan, h1]
        simp [List.takeWhile_cons]
      · have h3 : dashes ∈ rest := by
          rcases List.mem_cons.mp h with he | he
          · exact absurd he.symm h2
          · exact he
        simp only [cfmScan, h1, if_neg h2]
        rw [if_neg (by simp [h1]), ih h3 (acc ++ [l])]
        simp [List.takeWhile_cons, List.filter_cons, h2, h1]

/-- Without a closing delimiter the scan falls off the end and returns
the empty list, whatever was accumulated. -/
theorem cfmScan_no_dashes (catF tagF : Bool) (rest : List Bytes)
    (h : dashes ∉ rest) : ∀ acc, cfmScan catF tagF acc rest = [] := by
  induction rest with
  | nil => intro acc; rfl
  | cons l rest ih =>
    intro acc
    have hld : l ≠ dashes := by
      intro he
      exact h (he ▸ List.mem_cons_self l rest)
    have h2 : dashes ∉ rest := fun hm => h (List.mem_cons_of_mem l hm)
    by_cases h1 : managedKey catF tagF (keyOf l) = true
    · simp only [cfmScan, if_pos h1]
      exact ih h2 acc
    · simp only [cfmScan, h1, if_neg h2]
      rw [if_neg (by simp [h1]), if_neg hld]
      exact ih h2 (acc ++ [l])

/-- C3 counterexample: with both flags off, the line "categories: x" is
kept, and with both flags on it is discarded — so which lines the parser
discards does depend on the categories/tags configuration flags,
contradicting the claim's "regardless of how the flags are set". -/
theorem customFrontMatter_flag_dependence_c3 :
    customFrontMatter false false (bs ("---\ncategories: x\n---\nbody"))
        = [bs ("categories: x")]
    ∧ customFrontMatter true true (bs ("---\ncategories: x\n---\nbody")) = [] := by
  refine ⟨by decide, by decide⟩

/-- C3 (amended): for every well-delimited document, the parser keeps,
verbatim and in order, exactly the scanned lines whose candidate key is
not currently managed — where title, date, draft are always managed and
categories/tags are managed exactly when the corresponding flag is set
(the startup mutation of the bhugoFrontMatter map). -/
theorem customFrontMatter_filter_c3 (catF tagF : Bool) (f : Bytes) (rest : List Bytes)
    (h1 : splitB f = dashes :: rest) (h2 : dashes ∈ rest) :
    customFrontMatter catF tagF f
      = (rest.takeWhile (fun l => l ≠ dashes)).filter
          (fun l => !(managedKey catF tagF (keyOf l))) := by
  unfold customFrontMatter
  rw [h1]
  simp only [if_pos rfl]
  rw [cfmScan_eq_filter catF tagF rest h2 []]
  simp

/-- Witness for C3 (amended): on a document holding one custom line and
one tags line, with the tags flag on and the categories flag off, the
parser keeps exactly the custom line. -/
theorem customFrontMatter_filter_c3_witness :
    customFrontMatter false true (bs ("---\ncustom: a\ntags: x\n---\nbody"))
      = [bs ("custom: a")] := by
  have h := customFrontMatter_filter_c3 false true
    (bs ("---\ncustom: a\ntags: x\n---\nbody"))
    [bs ("custom: a"), bs ("tags: x"), dashes, bs ("body")]
    (by decide) (by decide)
  exact h.trans (by decide)

/-- C7: the parser returns the empty sequence on malformed documents:
when the first line is not exactly the dashes delimiter, and when no
closing delimiter line exists — in both cases without error. -/
theorem customFrontMatter_malformed_c7 (catF tagF : Bool) (f : Bytes) :
    ((splitB f).headI ≠ dashes → customFrontMatter catF tagF f = [])
    ∧ (dashes ∉ (splitB f).tail → customFrontMatter catF tagF f = []) := by
  obtain ⟨l0, rest, hsp⟩ : ∃ l0 rest, splitB f = l0 :: rest := by
    cases h : splitB f with
    | nil => exact absurd h (splitB_ne_nil f)
    | cons a b => exact ⟨a, b, rfl⟩
  constructor
  · intro hne
    rw [hsp] at hne
    simp only [List.headI] at hne
    unfold customFrontMatter
    rw [hsp]
    simp [if_neg hne]
  · intro hnd
    rw [hsp] at hnd
    simp only [List.tail_cons] at hnd
    unfold customFrontMatter
    rw [hsp]
    by_cases h0 : l0 = dashes
    · simp only [if_pos h0]
      exact cfmScan_no_dashes catF tagF rest hnd []
    · simp [if_neg h0]

/-- Witness for C7: one document whose first line is not the delimiter,
and one delimited document with no closing delimiter; both parse to the
empty sequence. -/
theorem customFrontMatter_malformed_c7_witness :
    customFrontMatter true true (bs ("abc")) = []
    ∧ customFrontMatter true true (bs ("---\ncustom: a\n\nBody")) = [] := by
  constructor
  · exact (customFrontMatter_malformed_c7 true true (bs ("abc"))).1 (by decide)
  · exact (customFrontMatter_malformed_c7 true true (bs ("---\ncustom: a\n\nBody"))).2 (by decide)

/-! ### Claim C5: the out-of-bounds silent skip (negative indices only) -/

/-- C5 (amended): when the configured tag-line index is negative and the
effective index lineCount + tagLine (after the trailing-empty strip)
resolves out of bounds, the note is skipped: the transformer returns the
silent skip and the writer run leaves the filesystem state untouched,
creates nothing and raises no error.  (For non-negative indices out of
bounds the code panics instead — see the counterexample.) -/
theorem transform_negative_oob_skips_c5 (cfg : Cfg) (title date raw : Bytes) (fs : FS)
    (hneg : cfg.tagLine < 0)
    (hoob : ((stripV2 (splitB (normQuotes raw))).length : Int) + cfg.tagLine < 0
      ∨ ((stripV2 (splitB (normQuotes raw))).length : Int)
          ≤ ((stripV2 (splitB (normQuotes raw))).length : Int) + cfg.tagLine) :
    transform cfg title date raw = .skip
    ∧ runOnce cfg title date raw fs = (fs, .skipped) := by
  have ht : transform cfg title date raw = .skip := by
    simp only [transform]
    rw [if_pos hneg, if_pos hoob]
  refine ⟨ht, ?_⟩
  simp only [runOnce, ht]

/-- Witness for C5: tag line -3 on a two-line body resolves to index -1
and the note is skipped with the filesystem left alone. -/
def cfgTagLineNeg3 : Cfg :=
  { noteTag := bs ("blog"), categories := true, tags := false,
    tagLine := -3, omitOthers := true }

theorem transform_negative_oob_skips_c5_witness :
    transform cfgTagLineNeg3 (bs ("t")) (bs ("d")) (bs ("a\nb")) = .skip
    ∧ runOnce cfgTagLineNeg3 (bs ("t")) (bs ("d")) (bs ("a\nb"))
        { dirCreated := false, file := none }
      = ({ dirCreated := false, file := none }, .skipped) :=
  transform_negative_oob_skips_c5 cfgTagLineNeg3 (bs ("t")) (bs ("d")) (bs ("a\nb"))
    { dirCreated := false, file := none } (by decide) (by decide)

/-! ### Claim C8: the rendered document shape -/

/-- Stated from the claim wording: the same front matter but with a
blank line between the closing delimiter and the body (what the claim
says the template produces). -/
def renderWithBlankLine (t : TNote) (cfm : List Bytes) : Bytes :=
  joinB (renderLines t cfm) ++ nl :: nl :: t.body

/-- A small concrete note used for the C8 counterexample. -/
def tC8 : TNote :=
  { title := bs ("T"), date := bs ("D"), hashtags := [bs ("A")],
    draft := false, categories := true, tags := true, body := bs ("B") }

/-- C8 counterexample: the template emits the closing delimiter followed
directly by one newline and the body — there is no inserted blank line.
On a body that does not itself start with an empty line the two shapes
differ. -/
theorem render_no_blank_line_c8 :
    render tC8 [] ≠ renderWithBlankLine tC8 []
    ∧ render tC8 []
        = bs ("---\ntitle: \"T\"\ndate: D\ncategories: [\"A\"]\ntags: [\"A\"]\ndraft: false\n---\nB") := by
  refine ⟨by decide, by decide⟩

/-- The custom front-matter block as flat bytes: one newline before each
preserved line. -/
def cfmFlat : List Bytes → Bytes
  | [] => []
  | l :: ls => nl :: (l ++ cfmFlat ls)

/-- Stated from the spec wording, amended: quoted title, unquoted date,
optional categories array (double-quoted, comma-joined, no trailing
comma), optional tags array over the same hashtag sequence, draft
boolean, the preserved custom lines verbatim, the closing delimiter,
one newline (no blank line), then the body verbatim. -/
def renderSpecFlat (t : TNote) (cfm : List Bytes) : Bytes :=
  dashes ++ nl :: (bs ("title: \"") ++ t.title ++ [34])
    ++ nl :: (bs ("date: ") ++ t.date)
    ++ (if t.categories then nl :: (bs ("categories: [") ++ hashtagArray t.hashtags ++ [93]) else [])
    ++ (if t.tags then nl :: (bs ("tags: [") ++ hashtagArray t.hashtags ++ [93]) else [])
    ++ nl :: (bs ("draft: ") ++ (if t.draft then bs ("true") else bs ("false")))
    ++ cfmFlat cfm
    ++ nl :: dashes
    ++ nl :: t.body

theorem joinB_cons_cons (x y : Bytes) (ys : List Bytes) :
    joinB (x :: y :: ys) = x ++ nl :: joinB (y :: ys) := rfl

/-- Joining a line, then the custom lines, then the final delimiter. -/
theorem joinB_tail_block (cfm : List Bytes) : ∀ z : Bytes,
    joinB (z :: (cfm ++ [dashes])) = z ++ cfmFlat cfm ++ nl :: dashes := by
  induction cfm with
  | nil => intro z; simp [joinB, cfmFlat]
  | cons c cs ih =>
    intro z
    rw [List.cons_append, joinB_cons_cons, ih c]
    simp [cfmFlat]

/-- C8 (amended): for every note and custom front matter, the rendered
document equals the flat spec shape — same component order, categories
and tags arrays over the identical hashtag sequence, and a single
newline (not a blank line) between the closing delimiter and the
body. -/
theorem render_shape_c8 (t : TNote) (cfm : List Bytes) :
    render t cfm = renderSpecFlat t cfm := by
  unfold render renderSpecFlat renderLines
  cases hc : t.categories <;> cases hg : t.tags <;>
    simp [joinB_cons_cons, joinB_tail_block, List.append_assoc]

/-! ### Claim C1: idempotence of transformer plus writer

The crux is the round trip: parsing the front matter out of a document
the template just rendered returns exactly the custom front matter that
went in, because the parser discards precisely the lines the template
generates (the emitted categories/tags lines exist if and only if the
same flags make their keys managed), and parser output lines are never
managed, never the delimiter, and never contain a newline. -/

theorem no_nl_append (a b : Bytes) (ha : nl ∉ a) (hb : nl ∉ b) : nl ∉ a ++ b := by
  intro h
  rcases List.mem_append.mp h with h2 | h2
  exacts [ha h2, hb h2]

theorem hashtagArray_no_nl : ∀ hs : List Bytes, (∀ c ∈ hs, nl ∉ c) → nl ∉ hashtagArray hs := by
  intro hs
  induction hs with
  | nil => intro _; simp [hashtagArray]
  | cons c cs ih =>
    intro h
    have hc := h c (List.mem_cons_self c cs)
    cases cs with
    | nil =>
      simp only [hashtagArray, quoted]
      intro hm
      rcases List.mem_cons.mp hm with h1 | h1
      · exact absurd h1 (by decide)
      · rcases List.mem_append.mp h1 with h2 | h2
        · exact hc h2
        · exact absurd h2 (by decide)
    | cons d ds =>
      have ih2 : nl ∉ hashtagArray (d :: ds) :=
        ih (fun x hx => h x (List.mem_cons_of_mem c hx))
      show nl ∉ quoted c ++ 44 :: hashtagArray (d :: ds)
      intro hm
      rcases List.mem_append.mp hm with h1 | h1
      · rcases List.mem_cons.mp h1 with h2 | h2
        · exact absurd h2 (by decide)
        · rcases List.mem_append.mp h2 with h3 | h3
          · exact hc h3
          · exact absurd h3 (by decide)
      · rcases List.mem_cons.mp h1 with h2 | h2
        · exact absurd h2 (by decide)
        · exact ih2 h2

/-- Every line the template emits is newline-free, provided the note
fields and the custom lines are. -/
theorem renderLines_no_nl (t : TNote) (cfm : List Bytes)
    (hT : nl ∉ t.title) (hD : nl ∉ t.date) (hH : ∀ c ∈ t.hashtags, nl ∉ c)
    (hcfm : ∀ l ∈ cfm, nl ∉ l) :
    ∀ x ∈ renderLines t cfm, nl ∉ x := by
  have harr : nl ∉ hashtagArray t.hashtags := hashtagArray_no_nl t.hashtags hH
  have h1 : ∀ x ∈ [dashes, bs ("title: \"") ++ t.title ++ [34], bs ("date: ") ++ t.date], nl ∉ x := by
    intro x hx
    rcases List.mem_cons.mp hx with rfl | hx
    · decide
    rcases List.mem_cons.mp hx with rfl | hx
    · exact no_nl_append _ _ (no_nl_append _ _ (by decide) hT) (by decide)
    rcases List.mem_cons.mp hx with rfl | hx
    · exact no_nl_append _ _ (by decide) hD
    · exact absurd hx (by simp)
  have h2 : ∀ x ∈ (if t.categories then [bs ("categories: [") ++ hashtagArray t.hashtags ++ [93]] else []), nl ∉ x := by
    by_cases hcflag : t.categories
    · simp only [if_pos hcflag]
      intro x hx
      rw [List.mem_singleton] at hx
      subst hx
      exact no_nl_append _ _ (no_nl_append _ _ (by decide) harr) (by decide)
    · simp [if_neg hcflag]
  have h3 : ∀ x ∈ (if t.tags then [bs ("tags: [") ++ hashtagArray t.hashtags ++ [93]] else []), nl ∉ x := by
    by_cases hgflag : t.tags
    · simp only [if_pos hgflag]
      intro x hx
      rw [List.mem_singleton] at hx
      subst hx
      exact no_nl_append _ _ (no_nl_append _ _ (by decide) harr) (by decide)
    · simp [if_neg hgflag]
  have h4 : ∀ x ∈ [bs ("draft: ") ++ (if t.draft then bs ("true") else bs ("false"))], nl ∉ x := by
    intro x hx
    rw [List.mem_singleton] at hx
    subst hx
    refine no_nl_append _ _ (by decide) ?_
    by_cases hd : t.draft
    · simp only [if_pos hd]; decide
    · simp only [if_neg hd]; decide
  have h6 : ∀ x ∈ [dashes], nl ∉ x := by
    intro x hx
    rw [List.mem_singleton] at hx
    subst hx; decide
  unfold renderLines
  refine List.forall_mem_append.mpr ⟨?_, h6⟩
  refine List.forall_mem_append.mpr ⟨?_, hcfm⟩
  refine List.forall_mem_append.mpr ⟨?_, h4⟩
  refine List.forall_mem_append.mpr ⟨?_, h3⟩
  exact List.forall_mem_append.mpr ⟨h1, h2⟩

theorem renderLines_ne_nil (t : TNote) (cfm : List Bytes) : renderLines t cfm ≠ [] := by
  simp [renderLines]

theorem render_ne_nil (t : TNote) (cfm : List Bytes) : render t cfm ≠ [] := by
  simp [render]

/-- Splitting a rendered document recovers the emitted lines followed by
the split of the body. -/
theorem splitB_render (t : TNote) (cfm : List Bytes)
    (h : ∀ x ∈ renderLines t cfm, nl ∉ x) :
    splitB (render t cfm) = renderLines t cfm ++ splitB t.body := by
  simp only [render]
  exact splitB_joinB (renderLines t cfm) t.body h (renderLines_ne_nil t cfm)

/-- `keyOf` reads everything before the first colon. -/
theorem keyOf_of_eq (l k r : Bytes) (h : l = k ++ 58 :: r) (hk : (58 : Nat) ∉ k) :
    keyOf l = k := by
  subst h
  induction k with
  | nil => simp [keyOf, List.takeWhile_cons]
  | cons b k2 ih =>
    have hb : b ≠ 58 := fun he => hk (he ▸ List.mem_cons_self b k2)
    have hk2 : (58 : Nat) ∉ k2 := fun hm => hk (List.mem_cons_of_mem b hm)
    have ih2 := ih hk2
    simp only [keyOf] at ih2 ⊢
    rw [List.cons_append, List.takeWhile_cons, if_pos (by simp [hb]), ih2]

theorem keyOf_titleLine (x : Bytes) :
    keyOf (bs ("title: \"") ++ (x ++ [34])) = bs ("title") := by
  refine keyOf_of_eq _ _ (bs (" \"") ++ (x ++ [34])) ?_ (by decide)
  rw [(by decide : bs ("title: \"") = bs ("title") ++ 58 :: bs (" \""))]
  simp

theorem keyOf_dateLine (x : Bytes) :
    keyOf (bs ("date: ") ++ x) = bs ("date") := by
  refine keyOf_of_eq _ _ (bs (" ") ++ x) ?_ (by decide)
  rw [(by decide : bs ("date: ") = bs ("date") ++ 58 :: bs (" "))]
  simp

theorem keyOf_catLine (x : Bytes) :
    keyOf (bs ("categories: [") ++ (x ++ [93])) = bs ("categories") := by
  refine keyOf_of_eq _ _ (bs (" [") ++ (x ++ [93])) ?_ (by decide)
  rw [(by decide : bs ("categories: [") = bs ("categories") ++ 58 :: bs (" ["))]
  simp

theorem keyOf_tagLine (x : Bytes) :
    keyOf (bs ("tags: [") ++ (x ++ [93])) = bs ("tags") := by
  refine keyOf_of_eq _ _ (bs (" [") ++ (x ++ [93])) ?_ (by decide)
  rw [(by decide : bs ("tags: [") = bs ("tags") ++ 58 :: bs (" ["))]
  simp

theorem keyOf_draftLine (x : Bytes) :
    keyOf (bs ("draft: ") ++ x) = bs ("draft") := by
  refine keyOf_of_eq _ _ (bs (" ") ++ x) ?_ (by decide)
  rw [(by decide : bs ("draft: ") = bs ("draft") ++ 58 :: bs (" "))]
  simp

theorem managed_title (catF tagF : Bool) : managedKey catF tagF (bs ("title")) = true := by
  cases catF <;> cases tagF <;> decide

theorem managed_date (catF tagF : Bool) : managedKey catF tagF (bs ("date")) = true := by
  cases catF <;> cases tagF <;> decide

theorem managed_draft (catF tagF : Bool) : managedKey catF tagF (bs ("draft")) = true := by
  cases catF <;> cases tagF <;> decide

theorem managed_categories (catF tagF : Bool) :
    managedKey catF tagF (bs ("categories")) = catF := by
  cases catF <;> cases tagF <;> decide

theorem managed_tags (catF tagF : Bool) :
    managedKey catF tagF (bs ("tags")) = tagF := by
  cases catF <;> cases tagF <;> decide

/-- The scan drops a managed line and keeps going. -/
theorem cfmScan_skip (catF tagF : Bool) (acc : List Bytes) (l : Bytes) (rest : List Bytes)
    (h : managedKey catF tagF (keyOf l) = true) :
    cfmScan catF tagF acc (l :: rest) = cfmScan catF tagF acc rest := by
  simp [cfmScan, h]

/-- The scan keeps unmanaged non-delimiter lines until the delimiter. -/
theorem cfmScan_custom (catF tagF : Bool) (cfm : List Bytes)
    (hc : ∀ l ∈ cfm, managedKey catF tagF (keyOf l) = false ∧ l ≠ dashes) :
    ∀ acc rest2, cfmScan catF tagF acc (cfm ++ dashes :: rest2) = acc ++ cfm := by
  induction cfm with
  | nil =>
    intro acc rest2
    simp only [List.nil_append, cfmScan, keyOf_dashes, managedKey_dashes]
    simp
  | cons c cs ih =>
    intro acc rest2
    have h1 := (hc c (List.mem_cons_self c cs)).1
    have h2 := (hc c (List.mem_cons_self c cs)).2
    have hcs : ∀ l ∈ cs, managedKey catF tagF (keyOf l) = false ∧ l ≠ dashes :=
      fun l hl => hc l (List.mem_cons_of_mem c hl)
    simp only [List.cons_append, cfmScan, h1, if_neg h2]
    rw [if_neg (by simp [h1])]
    show cfmScan catF tagF (acc ++ [c]) (cs ++ dashes :: rest2) = acc ++ c :: cs
    rw [ih hcs (acc ++ [c]) rest2]
    simp

/-- Anything the scan returns is either from the accumulator or an
unmanaged, non-delimiter line of the input. -/
theorem mem_cfmScan (catF tagF : Bool) (rest : List Bytes) :
    ∀ acc x, x ∈ cfmScan catF tagF acc rest →
      x ∈ acc ∨ (x ∈ rest ∧ managedKey catF tagF (keyOf x) = false ∧ x ≠ dashes) := by
  induction rest with
  | nil =>
    intro acc x hx
    simp [cfmScan] at hx
  | cons l rest ih =>
    intro acc x hx
    by_cases h1 : managedKey catF tagF (keyOf l) = true
    · rw [cfmScan_skip catF tagF acc l rest h1] at hx
      rcases ih acc x hx with h | ⟨hm, hr⟩
      · exact Or.inl h
      · exact Or.inr ⟨List.mem_cons_of_mem l hm, hr⟩
    · have h1f : managedKey catF tagF (keyOf l) = false := by
        revert h1; cases managedKey catF tagF (keyOf l) <;> simp
      by_cases h2 : l = dashes
      · have he : cfmScan catF tagF acc (l :: rest) = acc := by
          subst h2
          simp [cfmScan, h1f]
        rw [he] at hx
        exact Or.inl hx
      · have he : cfmScan catF tagF acc (l :: rest) = cfmScan catF tagF (acc ++ [l]) rest := by
          simp [cfmScan, h1f, h2]
        rw [he] at hx
        rcases ih (acc ++ [l]) x hx with h | ⟨hm, hr⟩
        · rcases List.mem_append.mp h with h3 | h3
          · exact Or.inl h3
          · rw [List.mem_singleton] at h3
            subst h3
            exact Or.inr ⟨List.mem_cons_self x rest, h1f, h2⟩
        · exact Or.inr ⟨List.mem_cons_of_mem l hm, hr⟩

/-- Parser output lines are unmanaged, never the delimiter, and contain
no newline byte. -/
theorem mem_customFrontMatter (catF tagF : Bool) (f : Bytes) (x : Bytes)
    (hx : x ∈ customFrontMatter catF tagF f) :
    managedKey catF tagF (keyOf x) = false ∧ x ≠ dashes ∧ nl ∉ x := by
  obtain ⟨l0, rest, hsp⟩ : ∃ l0 rest, splitB f = l0 :: rest := by
    cases h : splitB f with
    | nil => exact absurd h (splitB_ne_nil f)
    | cons a b => exact ⟨a, b, rfl⟩
  simp only [customFrontMatter, hsp] at hx
  by_cases h0 : l0 = dashes
  · rw [if_pos h0] at hx
    rcases mem_cfmScan catF tagF rest [] x hx with h | ⟨hm, h1, h2⟩
    · exact absurd h (by simp)
    · refine ⟨h1, h2, ?_⟩
      exact mem_splitB_no_nl f x (hsp ▸ List.mem_cons_of_mem l0 hm)
  · rw [if_neg h0] at hx
    exact absurd hx (by simp)

theorem mem_extractCfm (catF tagF : Bool) (c : Option Bytes) (x : Bytes)
    (hx : x ∈ extractCfm catF tagF c) :
    managedKey catF tagF (keyOf x) = false ∧ x ≠ dashes ∧ nl ∉ x := by
  cases c with
  | none => simp [extractCfm] at hx
  | some f =>
    simp only [extractCfm] at hx
    by_cases hf : f = []
    · rw [if_pos hf] at hx
      exact absurd hx (by simp)
    · rw [if_neg hf] at hx
      exact mem_customFrontMatter catF tagF f x hx

/-- The round trip: parsing the front matter of a freshly rendered
document under the same flags returns exactly the injected custom
lines. -/
theorem customFrontMatter_render (t : TNote) (cfm : List Bytes)
    (hT : nl ∉ t.title) (hD : nl ∉ t.date) (hH : ∀ c ∈ t.hashtags, nl ∉ c)
    (hcfm : ∀ l ∈ cfm, managedKey t.categories t.tags (keyOf l) = false ∧ l ≠ dashes ∧ nl ∉ l) :
    customFrontMatter t.categories t.tags (render t cfm) = cfm := by
  have hlines := renderLines_no_nl t cfm hT hD hH (fun l hl => (hcfm l hl).2.2)
  have hsp := splitB_render t cfm hlines
  have hcfm2 : ∀ l ∈ cfm, managedKey t.categories t.tags (keyOf l) = false ∧ l ≠ dashes :=
    fun l hl => ⟨(hcfm l hl).1, (hcfm l hl).2.1⟩
  simp only [customFrontMatter, hsp]
  cases hcflag : t.categories <;> cases hgflag : t.tags <;>
    simp only [renderLines, hcflag, hgflag, if_true, if_false,
      Bool.false_eq_true, List.nil_append, List.cons_append, List.append_nil,
      List.append_assoc, List.singleton_append, if_pos rfl] <;>
    rw [cfmScan_skip _ _ _ _ _ (by rw [keyOf_titleLine]; exact managed_title _ _),
      cfmScan_skip _ _ _ _ _ (by rw [keyOf_dateLine]; exact managed_date _ _)]
  · rw [cfmScan_skip _ _ _ _ _ (by rw [keyOf_draftLine]; exact managed_draft _ _)]
    rw [cfmScan_custom _ _ cfm (by rw [hcflag, hgflag] at hcfm2; exact hcfm2) [] (splitB t.body)]
    simp
  · rw [cfmScan_skip _ _ _ _ _ (by rw [keyOf_tagLine]; rw [managed_tags]),
      cfmScan_skip _ _ _ _ _ (by rw [keyOf_draftLine]; exact managed_draft _ _)]
    rw [cfmScan_custom _ _ cfm (by rw [hcflag, hgflag] at hcfm2; exact hcfm2) [] (splitB t.body)]
    simp
  · rw [cfmScan_skip _ _ _ _ _ (by rw [keyOf_catLine]; rw [managed_categories]),
      cfmScan_skip _ _ _ _ _ (by rw [keyOf_draftLine]; exact managed_draft _ _)]
    rw [cfmScan_custom _ _ cfm (by rw [hcflag, hgflag] at hcfm2; exact hcfm2) [] (splitB t.body)]
    simp
  · rw [cfmScan_skip _ _ _ _ _ (by rw [keyOf_catLine]; rw [managed_categories]),
      cfmScan_skip _ _ _ _ _ (by rw [keyOf_tagLine]; rw [managed_tags]),
      cfmScan_skip _ _ _ _ _ (by rw [keyOf_draftLine]; exact managed_draft _ _)]
    rw [cfmScan_custom _ _ cfm (by rw [hcflag, hgflag] at hcfm2; exact hcfm2) [] (splitB t.body)]
    simp

/-- A successfully transformed note carries the configured
categories/tags flags (updateHugoNote sets n.Categories and n.Tags from
the config). -/
theorem transformCore_ok_fields (cfg : Cfg) (title date : Bytes) (lines : List Bytes)
    (cur : Nat) (t : TNote) (h : transformCore cfg title date lines cur = .ok t) :
    t.categories = cfg.categories ∧ t.tags = cfg.tags := by
  simp only [transformCore] at h
  split at h
  · simp at h
  · split at h
    · simp at h
    · injection h with h2
      subst h2
      exact ⟨rfl, rfl⟩

theorem transform_ok_fields (cfg : Cfg) (title date raw : Bytes) (t : TNote)
    (h : transform cfg title date raw = .ok t) :
    t.categories = cfg.categories ∧ t.tags = cfg.tags := by
  simp only [transform] at h
  by_cases hneg : cfg.tagLine < 0
  · rw [if_pos hneg] at h
    by_cases hoob : ((stripV2 (splitB (normQuotes raw))).length : Int) + cfg.tagLine < 0
        ∨ ((stripV2 (splitB (normQuotes raw))).length : Int)
          ≤ ((stripV2 (splitB (normQuotes raw))).length : Int) + cfg.tagLine
    · rw [if_pos hoob] at h; simp at h
    · rw [if_neg hoob] at h
      exact transformCore_ok_fields cfg title date _ _ t h
  · rw [if_neg hneg] at h
    by_cases hlt : cfg.tagLine.toNat < (splitB (normQuotes raw)).length
    · rw [if_pos hlt] at h
      exact transformCore_ok_fields cfg title date _ _ t h
    · rw [if_neg hlt] at h; simp at h

/-- After a successful run, the bundle directory exists and the file
holds the document rendered with the custom front matter that was on
disk before the run. -/
theorem runOnce_ok_state (cfg : Cfg) (title date raw : Bytes) (fs : FS) (t : TNote)
    (ht : transform cfg title date raw = .ok t) :
    (runOnce cfg title date raw fs).1
      = { dirCreated := true,
          file := some (render t (extractCfm cfg.categories cfg.tags fs.file)) } := by
  simp only [runOnce, ht]
  cases hf : fs.file with
  | none => simp
  | some c =>
    by_cases hc : c = render t (extractCfm cfg.categories cfg.tags (some c))
    · simp only [if_pos hc]
      rw [FS.mk.injEq]
      exact ⟨rfl, by rw [← hc]⟩
    · simp only [if_neg hc]

/-- Extraction from a freshly rendered file is plain parsing (the file
is never empty). -/
theorem extractCfm_render (catF tagF : Bool) (t : TNote) (cfm : List Bytes) :
    extractCfm catF tagF (some (render t cfm)) = customFrontMatter catF tagF (render t cfm) := by
  simp only [extractCfm]
  rw [if_neg (render_ne_nil t cfm)]

/-- C1: running the transformer plus writer a second time on the same
raw note against the file the first run produced renders byte-identical
content, changes nothing on disk, and reports unchanged — including
when the pre-existing file carried custom front matter, which is
re-extracted and re-injected identically. -/
theorem idempotent_second_run_c1 (cfg : Cfg) (title date raw : Bytes) (fs0 : FS) (t : TNote)
    (ht : transform cfg title date raw = .ok t)
    (hT : nl ∉ t.title) (hD : nl ∉ t.date) (hH : ∀ c ∈ t.hashtags, nl ∉ c) :
    runOnce cfg title date raw (runOnce cfg title date raw fs0).1
        = ((runOnce cfg title date raw fs0).1, .unchanged)
    ∧ render t (extractCfm cfg.categories cfg.tags (runOnce cfg title date raw fs0).1.file)
        = render t (extractCfm cfg.categories cfg.tags fs0.file) := by
  obtain ⟨hcat, htag⟩ := transform_ok_fields cfg title date raw t ht
  have hfs1 := runOnce_ok_state cfg title date raw fs0 t ht
  have hinv : ∀ l ∈ extractCfm cfg.categories cfg.tags fs0.file,
      managedKey t.categories t.tags (keyOf l) = false ∧ l ≠ dashes ∧ nl ∉ l := by
    rw [hcat, htag]
    exact fun l hl => mem_extractCfm cfg.categories cfg.tags fs0.file l hl
  have hrt : customFrontMatter t.categories t.tags
      (render t (extractCfm cfg.categories cfg.tags fs0.file))
        = extractCfm cfg.categories cfg.tags fs0.file :=
    customFrontMatter_render t _ hT hD hH hinv
  have hrt2 := hrt
  rw [hcat, htag] at hrt2
  have hext : extractCfm cfg.categories cfg.tags
      (some (render t (extractCfm cfg.categories cfg.tags fs0.file)))
        = extractCfm cfg.categories cfg.tags fs0.file := by
    rw [extractCfm_render, hrt2]
  constructor
  · rw [hfs1]
    simp only [runOnce, ht, hext]
    simp
  · rw [hfs1]
    simp only [hext]

/-- Witness inputs for C1: the default-style config with tags also
enabled, a two-line note, an initially absent output file. -/
def cfgC1 : Cfg :=
  { noteTag := bs ("blog"), categories := true, tags := true,
    tagLine := -1, omitOthers := true }

def tC1 : TNote :=
  { title := bs ("T"), date := bs ("D"), hashtags := [bs ("Abc")],
    draft := false, categories := true, tags := true, body := [] }

theorem idempotent_second_run_c1_witness :
    runOnce cfgC1 (bs ("T")) (bs ("D")) (bs ("T\n#blog/abc"))
        (runOnce cfgC1 (bs ("T")) (bs ("D")) (bs ("T\n#blog/abc"))
          { dirCreated := false, file := none }).1
      = ((runOnce cfgC1 (bs ("T")) (bs ("D")) (bs ("T\n#blog/abc"))
          { dirCreated := false, file := none }).1, .unchanged)
    ∧ render tC1 (extractCfm cfgC1.categories cfgC1.tags
        (runOnce cfgC1 (bs ("T")) (bs ("D")) (bs ("T\n#blog/abc"))
          { dirCreated := false, file := none }).1.file)
      = render tC1 (extractCfm cfgC1.categories cfgC1.tags
          (FS.mk false none).file) :=
  idempotent_second_run_c1 cfgC1 (bs ("T")) (bs ("D")) (bs ("T\n#blog/abc"))
    { dirCreated := false, file := none } tC1
    (by decide) (by decide) (by decide) (by decide)

end Bhugo









